import Mathlib

/-!
Verification of the `code-challenge-solutions` repository against its
specification.  Part 1 embeds the executable code of the repository
(`src/problem_4/index.ts`, `src/problem_5`) as Lean definitions; the
leaderboard subsystem of the specification has no code in the repository,
so its components are modelled from the spec (each such definition says so
in its doc comment).  Part 2 states and proves the claims.
-/

/-! ### Problem 4: three sum-to-n implementations (src/problem_4/index.ts) -/

/-- JS `ToUint32` of a bit pattern: bitwise operators in JavaScript truncate
their result to 32 bits.  We work with the unsigned bit pattern. -/
def js32 (x : Nat) : Nat := x % 2 ^ 32

/-- Signed 32-bit reading of a 32-bit pattern, as JS stores the result of a
bitwise operator back into a number. -/
def toInt32 (x : Nat) : Int := if x < 2 ^ 31 then (x : Int) else (x : Int) - 2 ^ 32

/-- The inner carry-propagation `while (b !== 0)` loop of `sumToNBinary`:
`leftShift = (a & b) << 1; a = a ^ b; b = leftShift`.  The loop is run with
fuel; 33 units suffice because the carry word gains one trailing zero bit
per iteration and is truncated to 32 bits. -/
def addLoop : Nat → Nat → Nat → Nat
  | 0, a, _ => a
  | fuel + 1, a, b =>
    if b = 0 then a else addLoop fuel (js32 (a ^^^ b)) (js32 ((a &&& b) * 2))

/-- The outer `for (let i = 1; i <= n; i++)` loop of `sumToNBinary`,
accumulating `sum = addLoop sum i` for `i = 1 .. n`. -/
def binSum : Nat → Nat
  | 0 => 0
  | n + 1 => addLoop 33 (binSum n) (js32 (n + 1))

/-- `sumToNBinary` from `src/problem_4/index.ts`: returns 0 for `n <= 0`,
otherwise runs the bitwise-adder loop and returns the final `sum` (a signed
32-bit value). -/
def sumToNBinary (n : Int) : Int :=
  if n ≤ 0 then 0 else toInt32 (binSum n.toNat)

/-- `sumToNFormula` from `src/problem_4/index.ts`: `n <= 0 → 0`, else
`n * (n + 1) / 2` (exact for integers in the range the claim covers). -/
def sumToNFormula (n : Int) : Int :=
  if n ≤ 0 then 0 else n * (n + 1) / 2

/-- The recursion of `sumToNDPCache` with its module-level `memCache`
threaded explicitly: the cache maps `n` to a previously computed result. -/
def dpAux : (Nat → Option Int) → Nat → Int × (Nat → Option Int)
  | c, 0 => (0, c)
  | c, 1 => (1, c)
  | c, n + 2 =>
    match c (n + 2) with
    | some v => (v, c)
    | none =>
      let r := dpAux c (n + 1)
      let result : Int := (n + 2 : Int) + r.1
      (result, fun k => if k = n + 2 then some result else r.2 k)

/-- `sumToNDPCache` from `src/problem_4/index.ts`: `n <= 0 → 0`, `n = 1 → 1`,
else `n + sumToNDPCache (n - 1)` with memoisation in `memCache`. -/
def sumToNDPCache (c : Nat → Option Int) (n : Int) : Int × (Nat → Option Int) :=
  if n ≤ 0 then (0, c) else dpAux c n.toNat

/-- Triangular numbers, the reference value `1 + 2 + ... + n`. -/
def tri : Nat → Nat
  | 0 => 0
  | n + 1 => tri n + (n + 1)

/-- A cache state is consistent when every stored entry equals the value the
memo-free recursion computes (true of the initial empty `memCache`, and
preserved by every call). -/
def CacheOK (c : Nat → Option Int) : Prop :=
  ∀ k v, c k = some v → v = (tri k : Int)

/-! ### Problem 5: BaseRepository and UserRepository (src/problem_5) -/

/-- A row of a problem-5 table: only the `id` column is examined by
`BaseRepository.delete`; the rest of the columns are opaque payload. -/
structure Row where
  id : Nat
  payload : String
deriving DecidableEq

/-- `database.get` for `SELECT * FROM t WHERE id = ?`: the first matching
row, or null. -/
def dbGetById (tbl : List Row) (i : Nat) : Option Row :=
  tbl.find? (fun r => r.id == i)

/-- `database.run` for `DELETE FROM t WHERE id = ?`: the remaining rows plus
the `changes` count reported by sqlite. -/
def dbRunDeleteById (tbl : List Row) (i : Nat) : List Row × Nat :=
  let rest := tbl.filter (fun r => r.id != i)
  (rest, tbl.length - rest.length)

/-- `BaseRepository.delete` (src/problem_5, BaseRepository): `findById`
first; if no row, return `false` without issuing the DELETE; otherwise run
the DELETE and return `changes > 0`.  Result: (returned boolean, table
afterwards, whether a DELETE command was issued). -/
def BaseRepository.delete (tbl : List Row) (i : Nat) : Bool × List Row × Bool :=
  match dbGetById tbl i with
  | none => (false, tbl, false)
  | some _ =>
    let r := dbRunDeleteById tbl i
    (decide (0 < r.2), r.1, true)

/-- A row of the `users` table (src/problem_5 migration `001_create_users`):
`email TEXT UNIQUE NOT NULL`. -/
structure UserRow where
  id : Nat
  name : String
  email : String
  age : Option Nat
  status : String
deriving DecidableEq

/-- An `ApiError` of problem 5: HTTP status code and message. -/
structure ApiErr where
  statusCode : Nat
  message : String
deriving DecidableEq

/-- `UserRepository.findByEmail`: `SELECT * FROM users WHERE email = ?`,
first matching row or null. -/
def UserRepository.findByEmail (tbl : List UserRow) (e : String) : Option UserRow :=
  tbl.find? (fun r => r.email == e)

/-- `UserRepository.createUser` (src/unnamed/part_006): check
`findByEmail`; on a hit throw `ApiError("Email already exists", 400)`
without inserting; otherwise INSERT the row (AUTOINCREMENT id modelled as
max id + 1, `status` defaulted to "active") and return it.  The second
component is the table after the call. -/
def UserRepository.createUser (tbl : List UserRow) (nm e : String) (age : Option Nat)
    (st : Option String) : Except ApiErr UserRow × List UserRow :=
  match UserRepository.findByEmail tbl e with
  | some _ => (Except.error ⟨400, "Email already exists"⟩, tbl)
  | none =>
    let row : UserRow := ⟨(tbl.map (fun r => r.id)).foldr max 0 + 1, nm, e, age, st.getD "active"⟩
    (Except.ok row, tbl ++ [row])

/-! ### Leaderboard service (spec §2–§7).  The repository contains no code
for this subsystem (the source is a design narrative only), so every
definition in this section is modelled from the spec. -/

/-- Modelled from the spec: §3/§4.1 action token — missing from src/.  A
token binds user id, action type, authorized score delta and expiry; the
token id is the key of the store. -/
structure ActionToken where
  userID : Nat
  actionType : Nat
  delta : Int
  expiry : Nat
deriving DecidableEq

/-- Modelled from the spec: §4.1 durable token store — missing from src/.
Token id maps to the token and its used flag (`true` = `used`). -/
def TokenStore : Type := Nat → Option (ActionToken × Bool)

/-- Modelled from the spec: §4.1 verification failures. -/
inductive VerifyErr where
  | tokenExpired
  | tokenAlreadyUsed
  | tokenUnknownOrInvalidSignature
deriving DecidableEq

/-- Modelled from the spec: §4.1 `verify_and_consume` — missing from src/.
Unknown id → `TokenUnknownOrInvalidSignature`; past expiry →
`TokenExpired`; used flag set → `TokenAlreadyUsed`; otherwise the flag
flips `unused → used` and the bound data is returned.  The read of the
prior state and the transition are this one atomic step. -/
def verify_and_consume (st : TokenStore) (tid : Nat) (now : Nat) :
    Except VerifyErr (Nat × Nat × Int) × TokenStore :=
  match st tid with
  | none => (Except.error VerifyErr.tokenUnknownOrInvalidSignature, st)
  | some (tok, used) =>
    if tok.expiry < now then (Except.error VerifyErr.tokenExpired, st)
    else if used then (Except.error VerifyErr.tokenAlreadyUsed, st)
    else (Except.ok (tok.userID, tok.actionType, tok.delta),
      fun t => if t = tid then some (tok, true) else st t)

/-- Modelled from the spec: a set of concurrent `verify_and_consume` calls
on one token.  Each call is a single atomic transition, so any concurrent
execution is some sequential interleaving; the list gives the calls in
that interleaved order (each element is the `now` of one call). -/
def runVerifies (st : TokenStore) (tid : Nat) :
    List Nat → List (Except VerifyErr (Nat × Nat × Int)) × TokenStore
  | [] => ([], st)
  | now :: rest =>
    let r := verify_and_consume st tid now
    let rr := runVerifies r.2 tid rest
    (r.1 :: rr.1, rr.2)

/-- Modelled from the spec: §4.2 rate-limiter configuration (window length,
max events per window, penalty threshold, suspension cooldown). -/
structure RLConfig where
  window : Nat
  limit : Nat
  penaltyThreshold : Nat
  cooldown : Nat

/-- Modelled from the spec: §4.2 rate limiter state — missing from src/:
per-user accepted-event timestamps, penalty counter, suspension deadline. -/
structure RLState where
  events : Nat → List Nat
  penalty : Nat → Nat
  suspendedUntil : Nat → Nat

/-- Modelled from the spec: §4.2 admission outcomes. -/
inductive AdmitResult where
  | allowed
  | rateLimitExceeded
  | userSuspended
deriving DecidableEq

/-- Modelled from the spec: §4.2 `admit` — missing from src/.  A suspended
user is rejected outright; otherwise the accepted events with timestamps in
`[now - window, now]` are counted; below the limit the event is admitted
and recorded, else the penalty counter increments and at the configured
threshold the user is suspended for the cooldown. -/
def admission (cfg : RLConfig) (st : RLState) (u : Nat) (now : Nat) :
    AdmitResult × RLState :=
  if now < st.suspendedUntil u then (AdmitResult.userSuspended, st)
  else
    let cnt := ((st.events u).filter (fun t => now ≤ t + cfg.window && t ≤ now)).length
    if cnt < cfg.limit then
      (AdmitResult.allowed,
        { st with events := fun v => if v = u then now :: st.events u else st.events v })
    else
      let p := st.penalty u + 1
      (AdmitResult.rateLimitExceeded,
        { st with
          penalty := fun v => if v = u then p else st.penalty v
          suspendedUntil := fun v =>
            if v = u ∧ cfg.penaltyThreshold ≤ p then now + cfg.cooldown
            else st.suspendedUntil v })

/-- Modelled from the spec: a sequence of `admit` calls for one user, in
order; each element is the `now` of one call. -/
def runAdmissions (cfg : RLConfig) (st : RLState) (u : Nat) :
    List Nat → List AdmitResult × RLState
  | [] => ([], st)
  | now :: rest =>
    let r := admission cfg st u now
    let rr := runAdmissions cfg r.2 u rest
    (r.1 :: rr.1, rr.2)

/-- Modelled from the spec: §3 score-update event record. -/
structure ScoreEvent where
  userID : Nat
  delta : Int
  resultingTotal : Nat
  timestamp : Nat
  meta : String
deriving DecidableEq

/-- Modelled from the spec: §4.3 Score Ledger state — missing from src/:
per-user totals plus the append-only event log. -/
structure Ledger where
  totals : Nat → Option Nat
  log : List ScoreEvent

/-- Modelled from the spec: §4.3 apply failure. -/
inductive ApplyErr where
  | invalidScoreState
deriving DecidableEq

/-- The current total of a user, 0 before the first apply. -/
def Ledger.currentOf (lg : Ledger) (u : Nat) : Nat := (lg.totals u).getD 0

/-- Modelled from the spec: §4.3 `apply` — missing from src/: read the
current total, compute the new total, reject a negative result with
`InvalidScoreState` leaving the ledger untouched, otherwise write the new
total and append the event, all in the same transaction (one step of this
function). -/
def Ledger.apply (lg : Ledger) (u : Nat) (delta : Int) (ts : Nat) (meta : String) :
    Except ApplyErr Nat × Ledger :=
  let newTotal : Int := (lg.currentOf u : Int) + delta
  if newTotal < 0 then (Except.error ApplyErr.invalidScoreState, lg)
  else
    (Except.ok newTotal.toNat,
     { totals := fun v => if v = u then some newTotal.toNat else lg.totals v,
       log := lg.log ++ [⟨u, delta, newTotal.toNat, ts, meta⟩] })

/-- Modelled from the spec: §3/§4.4 leaderboard entry — user, score
snapshot, time the current score was first reached. -/
structure Entry where
  user : Nat
  score : Nat
  time : Nat
deriving DecidableEq

/-- Modelled from the spec: §4.4 ranking order — score descending, ties
broken by earliest time the current score was reached, made total and
antisymmetric on entries by a final user-id tiebreak. -/
def entryLE (a b : Entry) : Prop :=
  b.score < a.score ∨
    (a.score = b.score ∧ (a.time < b.time ∨ (a.time = b.time ∧ a.user ≤ b.user)))

instance : DecidableRel entryLE := fun a b => by
  unfold entryLE; infer_instance

/-- Modelled from the spec: §4.4 `update` — missing from src/: the user's
old key is removed, then the new key is inserted in order. -/
def idxUpdate (idx : List Entry) (u s t : Nat) : List Entry :=
  List.orderedInsert entryLE ⟨u, s, t⟩ (idx.filter (fun e => e.user != u))

/-- Modelled from the spec: §4.4 incremental maintenance — apply each
accepted score-update event in timestamp order (the log order). -/
def idxIncremental (events : List ScoreEvent) : List Entry :=
  events.foldl (fun idx e => idxUpdate idx e.userID e.resultingTotal e.timestamp) []

/-- Modelled from the spec: each user's final (score, time-reached) from the
event log, as an association list keyed by user (later events overwrite). -/
def finalEntries (events : List ScoreEvent) : List Entry :=
  events.foldl
    (fun acc e => (⟨e.userID, e.resultingTotal, e.timestamp⟩ : Entry) ::
      acc.filter (fun x => x.user != e.userID)) []

/-- Modelled from the spec: §4.4 full rebuild — recompute every user's
final score from the complete event log and sort. -/
def idxRebuild (events : List ScoreEvent) : List Entry :=
  List.insertionSort entryLE (finalEntries events)

/-- 1-based rank of a user in the index. -/
def rankOf (idx : List Entry) (u : Nat) : Nat :=
  idx.findIdx (fun e => e.user == u) + 1

/-- Modelled from the spec: §4.6 abort reasons (§7 taxonomy). -/
inductive AbortReason where
  | unauthorized
  | tokenExpired
  | tokenAlreadyUsed
  | tokenInvalid
  | rateLimitExceeded
  | userSuspended
  | invalidScoreState
deriving DecidableEq

/-- Mapping of §4.1 verification failures to §4.6 abort reasons. -/
def VerifyErr.toAbort : VerifyErr → AbortReason
  | VerifyErr.tokenExpired => AbortReason.tokenExpired
  | VerifyErr.tokenAlreadyUsed => AbortReason.tokenAlreadyUsed
  | VerifyErr.tokenUnknownOrInvalidSignature => AbortReason.tokenInvalid

/-- Modelled from the spec: §4.6 request outcome. -/
inductive Outcome where
  | responded (newScore : Nat) (newRank : Nat) (scoreIncrease : Int)
  | aborted (reason : AbortReason)
deriving DecidableEq

/-- Modelled from the spec: the state touched by the orchestrator; the
`delivered` field logs the rank-delta payloads the Broadcast Hub delivered
(publish failures deliver nothing). -/
structure SysState where
  tokens : TokenStore
  rl : RLState
  ledger : Ledger
  index : List Entry
  delivered : List (List Entry)

/-- Modelled from the spec: §4.6 Score Update Orchestrator — missing from
src/.  Steps in the spec's order: 1 authenticate (`authResult` is the
external collaborator's answer), 2 `verify_and_consume`, 3 `admit`,
4 `apply` with the token's bound delta, 5 reindex, 6 publish (best-effort;
`broadcastOk` says whether the publish succeeds), 7 respond. -/
def processRequest (cfg : RLConfig) (authResult : Option Nat) (tid : Nat)
    (now : Nat) (meta : String) (broadcastOk : Bool) (st : SysState) :
    Outcome × SysState :=
  match authResult with
  | none => (Outcome.aborted AbortReason.unauthorized, st)
  | some _ =>
    let v := verify_and_consume st.tokens tid now
    match v.1 with
    | Except.error e => (Outcome.aborted e.toAbort, { st with tokens := v.2 })
    | Except.ok (u, _aty, delta) =>
      let st1 : SysState := { st with tokens := v.2 }
      let a := admission cfg st1.rl u now
      match a.1 with
      | AdmitResult.rateLimitExceeded =>
        (Outcome.aborted AbortReason.rateLimitExceeded, { st1 with rl := a.2 })
      | AdmitResult.userSuspended =>
        (Outcome.aborted AbortReason.userSuspended, { st1 with rl := a.2 })
      | AdmitResult.allowed =>
        let st2 : SysState := { st1 with rl := a.2 }
        let ap := Ledger.apply st2.ledger u delta now meta
        match ap.1 with
        | Except.error _ => (Outcome.aborted AbortReason.invalidScoreState, st2)
        | Except.ok newScore =>
          let newIdx := idxUpdate st2.index u newScore now
          let st4 : SysState := { st2 with ledger := ap.2, index := newIdx }
          let st5 : SysState :=
            if broadcastOk then { st4 with delivered := st4.delivered ++ [newIdx] }
            else st4
          (Outcome.responded newScore (rankOf newIdx u) delta, st5)

/-- A demonstration token for the concrete counterexample states. -/
def demoToken : ActionToken := ⟨7, 1, 5, 100⟩

/-- A second demonstration token, for user 3, who is not rate limited. -/
def demoToken2 : ActionToken := ⟨3, 1, 5, 100⟩

/-- A demonstration system state: token id 1 unused and unexpired for user
7, token id 2 unused and unexpired for user 3, and user 7 already at the
rate limit (10 admitted events at time 50). -/
def demoState : SysState :=
  { tokens := fun t =>
      if t = 1 then some (demoToken, false)
      else if t = 2 then some (demoToken2, false) else none
    rl := { events := fun v => if v = 7 then List.replicate 10 50 else []
            penalty := fun _ => 0
            suspendedUntil := fun _ => 0 }
    ledger := { totals := fun _ => none, log := [] }
    index := []
    delivered := [] }

/-- The default rate-limiter configuration named by the spec: 10 events per
60 seconds (threshold and cooldown chosen arbitrarily). -/
def demoCfg : RLConfig := ⟨60, 10, 3, 1000⟩

/-! ### Part 2: theorems -/

theorem nat_add_eq_xor_add_two_land (a : Nat) : ∀ b : Nat, a + b = (a ^^^ b) + 2 * (a &&& b) := by
  induction a using Nat.strong_induction_on with
  | _ a ih =>
    intro b
    by_cases ha : a = 0
    · subst ha; simp
    · have hlt : a / 2 < a := Nat.div_lt_self (Nat.pos_of_ne_zero ha) one_lt_two
      have IH := ih (a / 2) hlt (b / 2)
      have hx : (a ^^^ b) / 2 = a / 2 ^^^ b / 2 := Nat.xor_div_two
      have hn : (a &&& b) / 2 = a / 2 &&& b / 2 := Nat.and_div_two
      have h1 : (a &&& b) % 2 = 1 ↔ a % 2 = 1 ∧ b % 2 = 1 := Nat.and_mod_two_eq_one
      have h2 : (a ^^^ b) % 2 = 1 ↔ ¬(a % 2 = 1 ↔ b % 2 = 1) := Nat.xor_mod_two_eq_one
      omega

theorem two_pow_dvd_land (k : Nat) : ∀ a b : Nat, 2 ^ k ∣ b → 2 ^ k ∣ a &&& b := by
  induction k with
  | zero => intro a b _; exact Nat.one_dvd _
  | succ k ih =>
    intro a b hb
    obtain ⟨c, rfl⟩ := hb
    have hlin : 2 ^ (k + 1) * c = 2 * (2 ^ k * c) := by rw [pow_succ]; ring
    have hb2 : (2 ^ (k + 1) * c) % 2 = 0 := by omega
    have hbdiv : (2 ^ (k + 1) * c) / 2 = 2 ^ k * c := by omega
    have h1 : (a &&& 2 ^ (k + 1) * c) % 2 = 1 ↔
        a % 2 = 1 ∧ (2 ^ (k + 1) * c) % 2 = 1 := Nat.and_mod_two_eq_one
    have hmod : (a &&& 2 ^ (k + 1) * c) % 2 = 0 := by omega
    have hdiv : (a &&& 2 ^ (k + 1) * c) / 2 = a / 2 &&& (2 ^ (k + 1) * c) / 2 :=
      Nat.and_div_two
    have hrec : 2 ^ k ∣ a / 2 &&& 2 ^ k * c := ih (a / 2) (2 ^ k * c) ⟨c, rfl⟩
    obtain ⟨d, hd⟩ := hrec
    refine ⟨d, ?_⟩
    have hstep : a &&& 2 ^ (k + 1) * c = 2 * (2 ^ k * d) := by
      rw [← hd, ← hbdiv, ← hdiv]; omega
    rw [hstep, pow_succ]; ring

theorem addLoop_spec : ∀ fuel a b : Nat, a < 2 ^ 32 → b < 2 ^ 32 →
    2 ^ (32 - fuel) ∣ b → addLoop (fuel + 1) a b = (a + b) % 2 ^ 32 := by
  intro fuel
  induction fuel with
  | zero =>
    intro a b ha hb hd
    have hb0 : b = 0 := by
      rcases Nat.eq_zero_or_pos b with h | h
      · exact h
      · exact absurd (Nat.le_of_dvd h hd) (by omega)
    subst hb0
    simp [addLoop]
    omega
  | succ fuel ih =>
    intro a b ha hb hd
    by_cases hb0 : b = 0
    · subst hb0
      simp [addLoop]
      omega
    · have step : addLoop (fuel + 1 + 1) a b
          = addLoop (fuel + 1) (js32 (a ^^^ b)) (js32 ((a &&& b) * 2)) := by
        simp [addLoop, hb0]
      have ha' : js32 (a ^^^ b) < 2 ^ 32 := Nat.mod_lt _ (by norm_num)
      have hb' : js32 ((a &&& b) * 2) < 2 ^ 32 := Nat.mod_lt _ (by norm_num)
      have hd' : 2 ^ (32 - fuel) ∣ js32 ((a &&& b) * 2) := by
        by_cases hf : 32 ≤ fuel
        · have : 32 - fuel = 0 := by omega
          rw [this]; exact Nat.one_dvd _
        · have h31 : 32 - (fuel + 1) = 31 - fuel := by omega
          have h32 : 32 - fuel = (31 - fuel) + 1 := by omega
          rw [h31] at hd
          have hland : 2 ^ (31 - fuel) ∣ a &&& b := two_pow_dvd_land _ a b hd
          obtain ⟨c, hc⟩ := hland
          have hmul : 2 ^ (32 - fuel) ∣ (a &&& b) * 2 := by
            refine ⟨c, ?_⟩
            rw [hc, h32, pow_succ]; ring
          have hsub : (32 - fuel) ≤ 32 := by omega
          exact (Nat.dvd_mod_iff (pow_dvd_pow 2 hsub)).mpr hmul
      rw [step, ih _ _ ha' hb' hd']
      unfold js32
      rw [← Nat.add_mod]
      have hkey := nat_add_eq_xor_add_two_land a b
      have : (a ^^^ b) + (a &&& b) * 2 = a + b := by omega
      rw [this]

theorem addLoop33 (a b : Nat) (ha : a < 2 ^ 32) (hb : b < 2 ^ 32) :
    addLoop 33 a b = (a + b) % 2 ^ 32 := by
  have := addLoop_spec 32 a b ha hb (by simp)
  simpa using this

theorem two_mul_tri (n : Nat) : 2 * tri n = n * (n + 1) := by
  induction n with
  | zero => simp [tri]
  | succ n ih =>
    show 2 * (tri n + (n + 1)) = (n + 1) * (n + 2)
    have : 2 * (tri n + (n + 1)) = 2 * tri n + 2 * (n + 1) := by ring
    rw [this, ih]; ring

theorem binSum_lt (n : Nat) : binSum n < 2 ^ 32 := by
  induction n with
  | zero => norm_num [binSum]
  | succ n ih =>
    have h1 : js32 (n + 1) < 2 ^ 32 := Nat.mod_lt _ (by norm_num)
    show addLoop 33 (binSum n) (js32 (n + 1)) < 2 ^ 32
    rw [addLoop33 (binSum n) (js32 (n + 1)) ih h1]
    exact Nat.mod_lt _ (by norm_num)

theorem binSum_eq (n : Nat) : binSum n = tri n % 2 ^ 32 := by
  induction n with
  | zero => simp [binSum, tri]
  | succ n ih =>
    have h1 : js32 (n + 1) < 2 ^ 32 := Nat.mod_lt _ (by norm_num)
    show addLoop 33 (binSum n) (js32 (n + 1)) = tri (n + 1) % 2 ^ 32
    rw [addLoop33 (binSum n) (js32 (n + 1)) (binSum_lt n) h1, ih]
    simp only [js32]
    rw [← Nat.add_mod]
    rfl

theorem dpAux_val : ∀ n : Nat, ∀ c : Nat → Option Int, CacheOK c →
    (dpAux c n).1 = (tri n : Int) ∧ CacheOK (dpAux c n).2 := by
  intro n
  induction n using Nat.strong_induction_on with
  | _ n ih =>
    intro c hc
    match n with
    | 0 => exact ⟨by simp [dpAux, tri], hc⟩
    | 1 => exact ⟨by simp [dpAux, tri], hc⟩
    | n + 2 =>
      rcases hv : c (n + 2) with _ | v
      · have hrec := ih (n + 1) (by omega) c hc
        have hval : ((n : Int) + 2) + (dpAux c (n + 1)).1 = (tri (n + 2) : Int) := by
          rw [hrec.1]
          show ((n : Int) + 2) + (tri (n + 1) : Int) = ((tri (n + 1) + (n + 2) : Nat) : Int)
          push_cast
          ring
        constructor
        · show (dpAux c (n + 2)).1 = (tri (n + 2) : Int)
          simp only [dpAux, hv]
          exact hval
        · intro k v hk
          simp only [dpAux, hv] at hk
          by_cases hkn : k = n + 2
          · subst hkn
            simp at hk
            rw [← hk]
            exact hval.symm ▸ by rw [← hval]
          · simp [hkn] at hk
            exact hrec.2 k v hk
      · refine ⟨?_, ?_⟩
        · show (dpAux c (n + 2)).1 = (tri (n + 2) : Int)
          simp only [dpAux, hv]
          exact hc _ _ hv
        · show CacheOK (dpAux c (n + 2)).2
          simp only [dpAux, hv]
          exact hc

theorem tri_eq_div (n : Nat) : tri n = n * (n + 1) / 2 := by
  have h := two_mul_tri n
  omega

/-- C8: for every integer `n`, `sumToNFormula`, `sumToNBinary` and
`sumToNDPCache` agree, returning 0 for `n ≤ 0` and `n*(n+1)/2` for `n ≥ 1`,
under the precondition that the running sums fit in the signed 32-bit range
(needed for the bitwise adder of `sumToNBinary`), and for any consistent
memo cache. -/
theorem sum_to_n_three_ways (n : Int) (c : Nat → Option Int) (hc : CacheOK c)
    (hfit : 0 < n → n * (n + 1) / 2 < 2 ^ 31) :
    sumToNFormula n = sumToNBinary n ∧
    sumToNFormula n = (sumToNDPCache c n).1 ∧
    sumToNFormula n = if n ≤ 0 then 0 else n * (n + 1) / 2 := by
  by_cases hn : n ≤ 0
  · refine ⟨?_, ?_, ?_⟩ <;> simp [sumToNFormula, sumToNBinary, sumToNDPCache, hn]
  · push_neg at hn
    have hN : ((n.toNat : Int)) = n := Int.toNat_of_nonneg (le_of_lt hn)
    have htri : (tri n.toNat : Int) = n * (n + 1) / 2 := by
      have h2 : 2 * (tri n.toNat : Int) = n * (n + 1) := by
        have h := two_mul_tri n.toNat
        have hcast : ((2 * tri n.toNat : Nat) : Int) = ((n.toNat * (n.toNat + 1) : Nat) : Int) := by
          rw [h]
        push_cast at hcast
        rw [hN] at hcast
        linarith
      omega
    have hform : sumToNFormula n = n * (n + 1) / 2 := by
      simp [sumToNFormula, not_le.mpr hn]
    have hlt : tri n.toNat < 2 ^ 31 := by
      have := hfit hn
      rw [← htri] at this
      exact_mod_cast this
    refine ⟨?_, ?_, ?_⟩
    · rw [hform]
      show n * (n + 1) / 2 = sumToNBinary n
      rw [sumToNBinary, if_neg (not_le.mpr hn), binSum_eq,
        Nat.mod_eq_of_lt (lt_trans hlt (by norm_num)), toInt32, if_pos hlt, htri]
    · rw [hform]
      show n * (n + 1) / 2 = (sumToNDPCache c n).1
      rw [sumToNDPCache, if_neg (not_le.mpr hn), (dpAux_val n.toNat c hc).1, htri]
    · rw [hform, if_neg (not_le.mpr hn)]

theorem sum_to_n_three_ways_witness :
    CacheOK (fun _ => none) ∧
    ((0 : Int) < 5 → (5 : Int) * (5 + 1) / 2 < 2 ^ 31) ∧
    (sumToNFormula 5 = sumToNBinary 5 ∧
     sumToNFormula 5 = (sumToNDPCache (fun _ => none) 5).1 ∧
     sumToNFormula 5 = if (5 : Int) ≤ 0 then 0 else 5 * (5 + 1) / 2) :=
  ⟨fun _ _ h => Option.noConfusion h, fun _ => by norm_num,
   sum_to_n_three_ways 5 (fun _ => none) (fun _ _ h => Option.noConfusion h)
     (fun _ => by norm_num)⟩

/-- C9: `BaseRepository.delete(id)` returns `false` and issues no DELETE
(table unchanged) when no row with that id exists; when such a row exists it
issues the DELETE, at least one row is removed, and it returns `true`
exactly when at least one row was removed (hence `true`). -/
theorem base_repository_delete_spec (tbl : List Row) (i : Nat) :
    (dbGetById tbl i = none →
      BaseRepository.delete tbl i = (false, tbl, false)) ∧
    (dbGetById tbl i ≠ none →
      (BaseRepository.delete tbl i).2.2 = true ∧
      ((BaseRepository.delete tbl i).1 = true ↔
        0 < tbl.length - ((BaseRepository.delete tbl i).2.1).length) ∧
      (BaseRepository.delete tbl i).1 = true) := by
  rcases h : dbGetById tbl i with _ | r
  · refine ⟨fun _ => ?_, fun hne => absurd rfl hne⟩
    simp [BaseRepository.delete, h]
  · refine ⟨fun hnone => Option.noConfusion hnone, fun _ => ?_⟩
    have hfind : tbl.find? (fun x => x.id == i) = some r := h
    have hmem : r ∈ tbl := List.mem_of_find?_eq_some hfind
    have hpr := List.find?_some hfind
    simp only at hpr
    have hdrop : (tbl.filter (fun x => x.id != i)).length < tbl.length := by
      refine List.length_filter_lt_length_iff_exists.mpr ⟨r, hmem, ?_⟩
      simp_all
    refine ⟨by simp [BaseRepository.delete, h, dbRunDeleteById], ?_, ?_⟩
    · simp [BaseRepository.delete, h, dbRunDeleteById]
    · simp [BaseRepository.delete, h, dbRunDeleteById]
      omega

theorem base_repository_delete_witness :
    (dbGetById [Row.mk 1 "a", Row.mk 2 "b"] 3 = none →
      BaseRepository.delete [Row.mk 1 "a", Row.mk 2 "b"] 3 =
        (false, [Row.mk 1 "a", Row.mk 2 "b"], false)) ∧
    (dbGetById [Row.mk 1 "a", Row.mk 2 "b"] 3 ≠ none →
      (BaseRepository.delete [Row.mk 1 "a", Row.mk 2 "b"] 3).2.2 = true ∧
      ((BaseRepository.delete [Row.mk 1 "a", Row.mk 2 "b"] 3).1 = true ↔
        0 < ([Row.mk 1 "a", Row.mk 2 "b"] : List Row).length -
          ((BaseRepository.delete [Row.mk 1 "a", Row.mk 2 "b"] 3).2.1).length) ∧
      (BaseRepository.delete [Row.mk 1 "a", Row.mk 2 "b"] 3).1 = true) :=
  base_repository_delete_spec [Row.mk 1 "a", Row.mk 2 "b"] 3

/-- C10: `UserRepository.createUser` fails with `ApiError 400
"Email already exists"` and inserts nothing when the email is taken, and
preserves the all-emails-distinct invariant of the `users` table. -/
theorem create_user_unique_email (tbl : List UserRow) (nm e : String)
    (age : Option Nat) (st : Option String) :
    (UserRepository.findByEmail tbl e ≠ none →
      (UserRepository.createUser tbl nm e age st).1 =
        Except.error ⟨400, "Email already exists"⟩ ∧
      (UserRepository.createUser tbl nm e age st).2 = tbl) ∧
    (tbl.Pairwise (fun a b => a.email ≠ b.email) →
      ((UserRepository.createUser tbl nm e age st).2).Pairwise
        (fun a b => a.email ≠ b.email)) := by
  rcases h : UserRepository.findByEmail tbl e with _ | r
  · refine ⟨fun hne => absurd rfl hne, fun hpw => ?_⟩
    have hfresh : ∀ x ∈ tbl, ¬(x.email == e) = true :=
      List.find?_eq_none.mp h
    have hshape : (UserRepository.createUser tbl nm e age st).2 =
        tbl ++ [⟨(tbl.map (fun r => r.id)).foldr max 0 + 1, nm, e, age, st.getD "active"⟩] := by
      simp [UserRepository.createUser, h]
    rw [hshape, List.pairwise_append]
    refine ⟨hpw, List.pairwise_singleton _ _, ?_⟩
    intro a ha b hb
    have hbe : b = (⟨(tbl.map (fun r => r.id)).foldr max 0 + 1, nm, e, age, st.getD "active"⟩ : UserRow) := by
      simpa using hb
    have := hfresh a ha
    subst hbe
    simp_all
  · refine ⟨fun _ => ?_, fun hpw => ?_⟩
    · constructor <;> simp [UserRepository.createUser, h]
    · have : (UserRepository.createUser tbl nm e age st).2 = tbl := by
        simp [UserRepository.createUser, h]
      rw [this]; exact hpw

theorem create_user_unique_email_witness :
    (UserRepository.findByEmail [UserRow.mk 1 "a" "a@x.io" none "active"] "a@x.io" ≠ none →
      (UserRepository.createUser [UserRow.mk 1 "a" "a@x.io" none "active"] "b" "a@x.io" none none).1 =
        Except.error ⟨400, "Email already exists"⟩ ∧
      (UserRepository.createUser [UserRow.mk 1 "a" "a@x.io" none "active"] "b" "a@x.io" none none).2 =
        [UserRow.mk 1 "a" "a@x.io" none "active"]) ∧
    (([UserRow.mk 1 "a" "a@x.io" none "active"] : List UserRow).Pairwise
        (fun a b => a.email ≠ b.email) →
      ((UserRepository.createUser [UserRow.mk 1 "a" "a@x.io" none "active"] "b" "a@x.io" none none).2).Pairwise
        (fun a b => a.email ≠ b.email)) :=
  create_user_unique_email [UserRow.mk 1 "a" "a@x.io" none "active"] "b" "a@x.io" none none

theorem verify_used (st : TokenStore) (tid now : Nat) (tok : ActionToken)
    (hst : st tid = some (tok, true)) (hnow : now ≤ tok.expiry) :
    verify_and_consume st tid now = (Except.error VerifyErr.tokenAlreadyUsed, st) := by
  simp [verify_and_consume, hst, Nat.not_lt.mpr hnow]

theorem runVerifies_used (st : TokenStore) (tid : Nat) (tok : ActionToken)
    (hst : st tid = some (tok, true)) :
    ∀ ts : List Nat, (∀ u ∈ ts, u ≤ tok.expiry) →
      runVerifies st tid ts =
        (ts.map (fun _ => Except.error VerifyErr.tokenAlreadyUsed), st) := by
  intro ts
  induction ts with
  | nil => intro _; rfl
  | cons t rest ih =>
    intro hts
    have h1 : verify_and_consume st tid t = (Except.error VerifyErr.tokenAlreadyUsed, st) :=
      verify_used st tid t tok hst (hts t (by simp))
    have h2 := ih (fun u hu => hts u (by simp [hu]))
    simp [runVerifies, h1, h2]

/-- C1: for every token and every interleaving of concurrent
`verify_and_consume` calls on that token (each call being one atomic
transition of the store), exactly one call — the first — succeeds with the
token's bound data, every other call fails with `TokenAlreadyUsed`, and the
token ends (irreversibly) in the `used` state. -/
theorem token_single_use (st : TokenStore) (tid : Nat) (tok : ActionToken)
    (t : Nat) (ts : List Nat) (hst : st tid = some (tok, false))
    (ht : t ≤ tok.expiry) (hts : ∀ u ∈ ts, u ≤ tok.expiry) :
    (runVerifies st tid (t :: ts)).1 =
      Except.ok (tok.userID, tok.actionType, tok.delta) ::
        ts.map (fun _ => Except.error VerifyErr.tokenAlreadyUsed) ∧
    (runVerifies st tid (t :: ts)).2 tid = some (tok, true) := by
  have hv : verify_and_consume st tid t =
      (Except.ok (tok.userID, tok.actionType, tok.delta),
       fun x => if x = tid then some (tok, true) else st x) := by
    simp [verify_and_consume, hst, Nat.not_lt.mpr ht]
  have hst' : (fun x => if x = tid then some (tok, true) else st x) tid =
      some (tok, true) := by simp
  have hrun := runVerifies_used (fun x => if x = tid then some (tok, true) else st x)
    tid tok hst' ts hts
  constructor
  · simp [runVerifies, hv, hrun]
  · simp [runVerifies, hv, hrun]

theorem token_single_use_witness :
    demoState.tokens 1 = some (demoToken, false) ∧
    10 ≤ demoToken.expiry ∧
    (∀ u ∈ [20, 30], u ≤ demoToken.expiry) ∧
    ((runVerifies demoState.tokens 1 (10 :: [20, 30])).1 =
      Except.ok (demoToken.userID, demoToken.actionType, demoToken.delta) ::
        [20, 30].map (fun _ => Except.error VerifyErr.tokenAlreadyUsed) ∧
     (runVerifies demoState.tokens 1 (10 :: [20, 30])).2 1 = some (demoToken, true)) :=
  ⟨rfl, by decide, by decide,
   token_single_use demoState.tokens 1 demoToken 10 [20, 30] rfl (by decide) (by decide)⟩

theorem runAdmissions_fresh (cfg : RLConfig) :
    ∀ (ts : List Nat) (st : RLState) (u : Nat) (l : List Nat),
      st.events u = l → st.suspendedUntil u = 0 →
      l.length + ts.length ≤ cfg.limit →
      (runAdmissions cfg st u ts).1 = List.replicate ts.length AdmitResult.allowed ∧
      (runAdmissions cfg st u ts).2.events u = ts.reverse ++ l ∧
      (runAdmissions cfg st u ts).2.suspendedUntil u = 0 := by
  intro ts
  induction ts with
  | nil =>
    intro st u l h1 h2 _
    exact ⟨rfl, by simpa [runAdmissions] using h1, h2⟩
  | cons t rest ih =>
    intro st u l h1 h2 h3
    have hns : ¬ t < st.suspendedUntil u := by rw [h2]; omega
    have hflt := List.length_filter_le
      (fun x => decide (t ≤ x + cfg.window) && decide (x ≤ t)) (st.events u)
    have hcnt : ((st.events u).filter
        (fun x => decide (t ≤ x + cfg.window) && decide (x ≤ t))).length < cfg.limit := by
      have hl : (st.events u).length = l.length := by rw [h1]
      simp at h3
      omega
    have hadm : admission cfg st u t = (AdmitResult.allowed,
        { st with events := fun v => if v = u then t :: st.events u else st.events v }) := by
      simp only [admission, if_neg hns, if_pos hcnt]
    have hih := ih { st with events := fun v => if v = u then t :: st.events u else st.events v }
      u (t :: l) (by simp [h1]) h2 (by simp at h3 ⊢; omega)
    refine ⟨?_, ?_, ?_⟩
    · simp [runAdmissions, hadm, hih.1, List.replicate_succ]
    · show (runAdmissions cfg st u (t :: rest)).2.events u = (t :: rest).reverse ++ l
      have : (t :: rest).reverse ++ l = rest.reverse ++ (t :: l) := by simp
      rw [this]
      simpa [runAdmissions, hadm] using hih.2.1
    · simpa [runAdmissions, hadm] using hih.2.2

/-- C2: with the default window of 60 seconds and limit of 10, a user's
first 10 admissions from a fresh state all succeed; the 11th attempt at a
time within 60 seconds of the earliest counted event fails with
`RateLimitExceeded`, and the same attempt made more than 60 seconds after
the earliest counted event succeeds. -/
theorem rate_limiter_window (th cd : Nat) (st : RLState) (u t1 T : Nat)
    (rest : List Nat) (h0 : st.events u = []) (hs : st.suspendedUntil u = 0)
    (hlen : rest.length = 9) (hmin : ∀ t ∈ rest, t1 ≤ t)
    (hle : t1 ≤ T) (hleR : ∀ t ∈ rest, t ≤ T) :
    (runAdmissions ⟨60, 10, th, cd⟩ st u (t1 :: rest)).1 =
      List.replicate 10 AdmitResult.allowed ∧
    (T ≤ t1 + 60 →
      (admission ⟨60, 10, th, cd⟩ (runAdmissions ⟨60, 10, th, cd⟩ st u (t1 :: rest)).2 u T).1 =
        AdmitResult.rateLimitExceeded) ∧
    (t1 + 60 < T →
      (admission ⟨60, 10, th, cd⟩ (runAdmissions ⟨60, 10, th, cd⟩ st u (t1 :: rest)).2 u T).1 =
        AdmitResult.allowed) := by
  have hfresh := runAdmissions_fresh ⟨60, 10, th, cd⟩ (t1 :: rest) st u [] h0 hs
    (by simp [hlen])
  obtain ⟨hres, hev, hsu⟩ := hfresh
  have hlen10 : (t1 :: rest).length = 10 := by simp [hlen]
  have hns : ¬ T < (runAdmissions ⟨60, 10, th, cd⟩ st u (t1 :: rest)).2.suspendedUntil u := by
    rw [hsu]; omega
  have hevlen : ((runAdmissions ⟨60, 10, th, cd⟩ st u (t1 :: rest)).2.events u).length = 10 := by
    rw [hev]; simp [hlen]
  have hmem : ∀ x, x ∈ (runAdmissions ⟨60, 10, th, cd⟩ st u (t1 :: rest)).2.events u ↔
      (x = t1 ∨ x ∈ rest) := by
    intro x
    rw [hev]
    simp [or_comm]
  refine ⟨by rw [hres, hlen10], ?_, ?_⟩
  · intro hT
    have hall : ∀ x ∈ (runAdmissions ⟨60, 10, th, cd⟩ st u (t1 :: rest)).2.events u,
        (decide (T ≤ x + 60) && decide (x ≤ T)) = true := by
      intro x hx
      rcases (hmem x).mp hx with h | h
      · subst h; simp; omega
      · have := hmin x h
        have := hleR x h
        simp; omega
    have hfe : ((runAdmissions ⟨60, 10, th, cd⟩ st u (t1 :: rest)).2.events u).filter
        (fun x => decide (T ≤ x + 60) && decide (x ≤ T)) =
        (runAdmissions ⟨60, 10, th, cd⟩ st u (t1 :: rest)).2.events u :=
      List.filter_eq_self.mpr hall
    have hcnt : ¬ (((runAdmissions ⟨60, 10, th, cd⟩ st u (t1 :: rest)).2.events u).filter
        (fun x => decide (T ≤ x + 60) && decide (x ≤ T))).length < 10 := by
      rw [hfe, hevlen]
      omega
    simp only [admission, if_neg hns]
    rw [if_neg hcnt]
  · intro hT
    have ht1mem : t1 ∈ (runAdmissions ⟨60, 10, th, cd⟩ st u (t1 :: rest)).2.events u :=
      (hmem t1).mpr (Or.inl rfl)
    have hdrop : (((runAdmissions ⟨60, 10, th, cd⟩ st u (t1 :: rest)).2.events u).filter
        (fun x => decide (T ≤ x + 60) && decide (x ≤ T))).length <
        ((runAdmissions ⟨60, 10, th, cd⟩ st u (t1 :: rest)).2.events u).length := by
      refine List.length_filter_lt_length_iff_exists.mpr ⟨t1, ht1mem, ?_⟩
      simp; omega
    have hcnt : (((runAdmissions ⟨60, 10, th, cd⟩ st u (t1 :: rest)).2.events u).filter
        (fun x => decide (T ≤ x + 60) && decide (x ≤ T))).length < 10 := by
      rw [hevlen] at hdrop
      omega
    simp only [admission, if_neg hns]
    rw [if_pos hcnt]

theorem rate_limiter_window_witness :
    demoState.rl.events 3 = [] ∧
    demoState.rl.suspendedUntil 3 = 0 ∧
    ([11, 12, 13, 14, 15, 16, 17, 18, 19] : List Nat).length = 9 ∧
    (∀ t ∈ [11, 12, 13, 14, 15, 16, 17, 18, 19], 10 ≤ t) ∧
    10 ≤ 65 ∧
    (∀ t ∈ [11, 12, 13, 14, 15, 16, 17, 18, 19], t ≤ 65) ∧
    ((runAdmissions ⟨60, 10, 3, 1000⟩ demoState.rl 3
        (10 :: [11, 12, 13, 14, 15, 16, 17, 18, 19])).1 =
      List.replicate 10 AdmitResult.allowed ∧
     (65 ≤ 10 + 60 →
      (admission ⟨60, 10, 3, 1000⟩ (runAdmissions ⟨60, 10, 3, 1000⟩ demoState.rl 3
          (10 :: [11, 12, 13, 14, 15, 16, 17, 18, 19])).2 3 65).1 =
        AdmitResult.rateLimitExceeded) ∧
     (10 + 60 < 65 →
      (admission ⟨60, 10, 3, 1000⟩ (runAdmissions ⟨60, 10, 3, 1000⟩ demoState.rl 3
          (10 :: [11, 12, 13, 14, 15, 16, 17, 18, 19])).2 3 65).1 =
        AdmitResult.allowed)) :=
  ⟨rfl, rfl, rfl, by decide, by decide, by decide,
   rate_limiter_window 3 1000 demoState.rl 3 10 65
     [11, 12, 13, 14, 15, 16, 17, 18, 19] rfl rfl rfl
     (by decide) (by decide) (by decide)⟩

/-- C3: `apply` is one transaction: a delta that would drive the total
negative fails with `InvalidScoreState` and changes neither the user's
total nor the event log; otherwise the new total is written and the
score-update event appended in the same step, other users untouched. -/
theorem ledger_apply_atomic (lg : Ledger) (u : Nat) (delta : Int) (ts : Nat)
    (meta : String) :
    ((lg.currentOf u : Int) + delta < 0 →
      (Ledger.apply lg u delta ts meta).1 = Except.error ApplyErr.invalidScoreState ∧
      (Ledger.apply lg u delta ts meta).2 = lg) ∧
    (0 ≤ (lg.currentOf u : Int) + delta →
      (Ledger.apply lg u delta ts meta).1 =
        Except.ok ((lg.currentOf u : Int) + delta).toNat ∧
      (Ledger.apply lg u delta ts meta).2.totals u =
        some ((lg.currentOf u : Int) + delta).toNat ∧
      (∀ v, v ≠ u → (Ledger.apply lg u delta ts meta).2.totals v = lg.totals v) ∧
      (Ledger.apply lg u delta ts meta).2.log =
        lg.log ++ [⟨u, delta, ((lg.currentOf u : Int) + delta).toNat, ts, meta⟩]) := by
  constructor
  · intro h
    constructor <;> simp [Ledger.apply, if_pos h]
  · intro h
    have h' : ¬ ((lg.currentOf u : Int) + delta < 0) := not_lt.mpr h
    refine ⟨?_, ?_, ?_, ?_⟩
    · simp [Ledger.apply, if_neg h']
    · simp [Ledger.apply, if_neg h']
    · intro v hv
      simp [Ledger.apply, if_neg h', hv]
    · simp [Ledger.apply, if_neg h']

theorem ledger_apply_atomic_witness :
    ((((Ledger.mk (fun _ => none) []).currentOf 1 : Int) + (-5) < 0 →
      (Ledger.apply (Ledger.mk (fun _ => none) []) 1 (-5) 0 "m").1 =
        Except.error ApplyErr.invalidScoreState ∧
      (Ledger.apply (Ledger.mk (fun _ => none) []) 1 (-5) 0 "m").2 =
        Ledger.mk (fun _ => none) []) ∧
    (0 ≤ (((Ledger.mk (fun _ => none) []).currentOf 1 : Int) + (-5)) →
      (Ledger.apply (Ledger.mk (fun _ => none) []) 1 (-5) 0 "m").1 =
        Except.ok ((((Ledger.mk (fun _ => none) []).currentOf 1 : Int) + (-5)).toNat) ∧
      (Ledger.apply (Ledger.mk (fun _ => none) []) 1 (-5) 0 "m").2.totals 1 =
        some ((((Ledger.mk (fun _ => none) []).currentOf 1 : Int) + (-5)).toNat) ∧
      (∀ v, v ≠ 1 →
        (Ledger.apply (Ledger.mk (fun _ => none) []) 1 (-5) 0 "m").2.totals v =
          (Ledger.mk (fun _ => none) []).totals v) ∧
      (Ledger.apply (Ledger.mk (fun _ => none) []) 1 (-5) 0 "m").2.log =
        (Ledger.mk (fun _ => none) []).log ++
          [⟨1, -5, (((Ledger.mk (fun _ => none) []).currentOf 1 : Int) + (-5)).toNat, 0, "m"⟩])) :=
  ledger_apply_atomic (Ledger.mk (fun _ => none) []) 1 (-5) 0 "m"

theorem entryLE_total : ∀ a b : Entry, entryLE a b ∨ entryLE b a := by
  intro a b
  unfold entryLE
  omega

theorem entryLE_trans : ∀ a b c : Entry, entryLE a b → entryLE b c → entryLE a c := by
  intro a b c hab hbc
  unfold entryLE at hab hbc ⊢
  omega

theorem entryLE_antisymm : ∀ a b : Entry, entryLE a b → entryLE b a → a = b := by
  intro a b hab hba
  obtain ⟨ua, sa, ta⟩ := a
  obtain ⟨ub, sb, tb⟩ := b
  unfold entryLE at hab hba
  simp only [Entry.mk.injEq]
  simp only at hab hba
  omega

instance : IsTotal Entry entryLE := ⟨entryLE_total⟩

instance : IsTrans Entry entryLE := ⟨entryLE_trans⟩

instance : IsAntisymm Entry entryLE := ⟨entryLE_antisymm⟩

theorem idxUpdate_sorted (idx : List Entry) (h : idx.Sorted entryLE) (u s t : Nat) :
    (idxUpdate idx u s t).Sorted entryLE :=
  List.Sorted.orderedInsert _ _ (h.filter _)

theorem idxUpdate_perm (idx acc : List Entry) (h : idx.Perm acc) (u s t : Nat) :
    (idxUpdate idx u s t).Perm
      ((⟨u, s, t⟩ : Entry) :: acc.filter (fun x => x.user != u)) :=
  (List.perm_orderedInsert entryLE (⟨u, s, t⟩ : Entry) _).trans ((h.filter _).cons _)

theorem idx_fold_spec : ∀ (events : List ScoreEvent) (idx acc : List Entry),
    idx.Sorted entryLE → idx.Perm acc →
    (events.foldl (fun i e => idxUpdate i e.userID e.resultingTotal e.timestamp)
      idx).Sorted entryLE ∧
    (events.foldl (fun i e => idxUpdate i e.userID e.resultingTotal e.timestamp)
      idx).Perm
      (events.foldl (fun a e => (⟨e.userID, e.resultingTotal, e.timestamp⟩ : Entry) ::
        a.filter (fun x => x.user != e.userID)) acc) := by
  intro events
  induction events with
  | nil => intro idx acc hs hp; exact ⟨hs, hp⟩
  | cons e rest ih =>
    intro idx acc hs hp
    exact ih _ _ (idxUpdate_sorted idx hs _ _ _) (idxUpdate_perm idx acc hp _ _ _)

/-- C4: rebuilding the Leaderboard Index by full recompute from the
complete event log yields exactly the same index — same entries, same
order, hence same ranks — as applying each event incrementally in
timestamp (log) order. -/
theorem leaderboard_rebuild_eq_incremental (events : List ScoreEvent) :
    idxIncremental events = idxRebuild events := by
  have h := idx_fold_spec events [] [] List.sorted_nil (List.Perm.refl [])
  have h3 : (finalEntries events).Perm (idxRebuild events) :=
    (List.perm_insertionSort entryLE _).symm
  exact List.eq_of_perm_of_sorted (h.2.trans h3) h.1
    (List.sorted_insertionSort entryLE _)

/-- Distinct users: no user appears twice in the index. -/
def UsersDistinct (l : List Entry) : Prop :=
  l.Pairwise (fun a b => a.user ≠ b.user)

theorem userNe_symm : ∀ {x y : Entry},
    (fun a b : Entry => a.user ≠ b.user) x y →
    (fun a b : Entry => a.user ≠ b.user) y x := fun h => Ne.symm h

theorem idxUpdate_users (idx : List Entry) (h : UsersDistinct idx) (u s t : Nat) :
    UsersDistinct (idxUpdate idx u s t) := by
  have hperm := List.perm_orderedInsert entryLE (⟨u, s, t⟩ : Entry)
    (idx.filter (fun e => e.user != u))
  refine (hperm.pairwise_iff userNe_symm).mpr ?_
  constructor
  · intro y hy
    have := List.of_mem_filter hy
    simp at this
    exact fun hc => this (by rw [← hc])
  · exact h.filter _

theorem idx_fold_users : ∀ (events : List ScoreEvent) (idx : List Entry),
    UsersDistinct idx →
    UsersDistinct (events.foldl
      (fun i e => idxUpdate i e.userID e.resultingTotal e.timestamp) idx) := by
  intro events
  induction events with
  | nil => intro idx h; exact h
  | cons e rest ih => intro idx h; exact ih _ (idxUpdate_users idx h _ _ _)

/-- C7: at every reachable state of the index (any sequence of applied
events starting from the empty index), the entries are totally ordered by
score descending with ties broken by earliest time-at-score (then user id),
no user appears twice, and for every N each of the first N entries has a
score at least that of every entry beyond rank N — the top N are exactly
the N highest scores. -/
theorem leaderboard_rank_invariant (events : List ScoreEvent) (N : Nat) :
    (idxIncremental events).Sorted entryLE ∧
    UsersDistinct (idxIncremental events) ∧
    (∀ e1 ∈ (idxIncremental events).take N,
      ∀ e2 ∈ (idxIncremental events).drop N, e2.score ≤ e1.score) := by
  have hs : (idxIncremental events).Sorted entryLE :=
    (idx_fold_spec events [] [] List.sorted_nil (List.Perm.refl [])).1
  refine ⟨hs, idx_fold_users events [] (List.Pairwise.nil), ?_⟩
  intro e1 h1 e2 h2
  have hsplit : ((idxIncremental events).take N ++
      (idxIncremental events).drop N).Pairwise entryLE := by
    rw [List.take_append_drop]
    exact hs
  have hcross := (List.pairwise_append.mp hsplit).2.2 e1 h1 e2 h2
  unfold entryLE at hcross
  omega

theorem leaderboard_rank_invariant_witness :
    ((idxIncremental [⟨1, 5, 5, 0, "a"⟩, ⟨2, 9, 9, 1, "b"⟩]).Sorted entryLE ∧
     UsersDistinct (idxIncremental [⟨1, 5, 5, 0, "a"⟩, ⟨2, 9, 9, 1, "b"⟩]) ∧
     (∀ e1 ∈ (idxIncremental [⟨1, 5, 5, 0, "a"⟩, ⟨2, 9, 9, 1, "b"⟩]).take 1,
       ∀ e2 ∈ (idxIncremental [⟨1, 5, 5, 0, "a"⟩, ⟨2, 9, 9, 1, "b"⟩]).drop 1,
         e2.score ≤ e1.score)) :=
  leaderboard_rank_invariant [⟨1, 5, 5, 0, "a"⟩, ⟨2, 9, 9, 1, "b"⟩] 1

/-- C5 counterexample: a concrete request that passes authentication and
token verification but fails rate admission; contrary to the claim's last
clause, its token HAS been consumed (the spec's own §4.6 order runs token
verification before rate admission, and §7 forbids refunding). -/
theorem orchestrator_rate_fail_token_consumed :
    (processRequest demoCfg (some 7) 1 50 "" true demoState).1 =
      Outcome.aborted AbortReason.rateLimitExceeded ∧
    (processRequest demoCfg (some 7) 1 50 "" true demoState).2.tokens 1 =
      some (demoToken, true) ∧
    demoState.tokens 1 = some (demoToken, false) := by
  refine ⟨by decide, by decide, by decide⟩

/-- C5 (amended): per request the steps run in the spec's order — auth,
token verification, rate admission, ledger apply — so an unauthenticated
request changes nothing, a replayed (or otherwise invalid) token aborts
before rate admission and before the ledger, and a request that fails rate
admission never reaches the ledger; its token, however, remains consumed
(verification precedes admission and is not refunded, §7). -/
theorem orchestrator_pipeline_order (cfg : RLConfig) (auth : Option Nat)
    (tid now : Nat) (meta : String) (bOk : Bool) (st : SysState) :
    (auth = none →
      processRequest cfg auth tid now meta bOk st =
        (Outcome.aborted AbortReason.unauthorized, st)) ∧
    (∀ w e, auth = some w →
      (verify_and_consume st.tokens tid now).1 = Except.error e →
      (processRequest cfg auth tid now meta bOk st).1 = Outcome.aborted e.toAbort ∧
      (processRequest cfg auth tid now meta bOk st).2.ledger = st.ledger ∧
      (processRequest cfg auth tid now meta bOk st).2.rl = st.rl) ∧
    (∀ w u aty delta, auth = some w →
      (verify_and_consume st.tokens tid now).1 = Except.ok (u, aty, delta) →
      (admission cfg st.rl u now).1 ≠ AdmitResult.allowed →
      (processRequest cfg auth tid now meta bOk st).2.ledger = st.ledger ∧
      (processRequest cfg auth tid now meta bOk st).2.tokens =
        (verify_and_consume st.tokens tid now).2) := by
  refine ⟨?_, ?_, ?_⟩
  · intro h; subst h; rfl
  · intro w e hw hv
    subst hw
    refine ⟨?_, ?_, ?_⟩ <;> simp [processRequest, hv]
  · intro w u aty delta hw hv ha
    subst hw
    rcases ha' : (admission cfg st.rl u now).1 with _ | _ | _
    · exact absurd ha' ha
    · constructor <;> simp [processRequest, hv, ha']
    · constructor <;> simp [processRequest, hv, ha']

theorem orchestrator_pipeline_order_witness :
    ((none : Option Nat) = none →
      processRequest demoCfg none 1 50 "" true demoState =
        (Outcome.aborted AbortReason.unauthorized, demoState)) ∧
    (∀ w e, (none : Option Nat) = some w →
      (verify_and_consume demoState.tokens 1 50).1 = Except.error e →
      (processRequest demoCfg none 1 50 "" true demoState).1 = Outcome.aborted e.toAbort ∧
      (processRequest demoCfg none 1 50 "" true demoState).2.ledger = demoState.ledger ∧
      (processRequest demoCfg none 1 50 "" true demoState).2.rl = demoState.rl) ∧
    (∀ w u aty delta, (none : Option Nat) = some w →
      (verify_and_consume demoState.tokens 1 50).1 = Except.ok (u, aty, delta) →
      (admission demoCfg demoState.rl u 50).1 ≠ AdmitResult.allowed →
      (processRequest demoCfg none 1 50 "" true demoState).2.ledger = demoState.ledger ∧
      (processRequest demoCfg none 1 50 "" true demoState).2.tokens =
        (verify_and_consume demoState.tokens 1 50).2) :=
  orchestrator_pipeline_order demoCfg none 1 50 "" true demoState

/-- C6: once the ledger apply step has succeeded (the pipeline reaches a
`responded` outcome), a failure of the broadcast publish step changes
neither the response nor any core state — ledger, token store, rate
limiter, index are identical; only the delivery log differs. -/
theorem broadcast_best_effort (cfg : RLConfig) (auth : Option Nat)
    (tid now : Nat) (meta : String) (st : SysState) (n r : Nat) (d : Int)
    (h : (processRequest cfg auth tid now meta true st).1 = Outcome.responded n r d) :
    (processRequest cfg auth tid now meta false st).1 = Outcome.responded n r d ∧
    (processRequest cfg auth tid now meta false st).2.ledger =
      (processRequest cfg auth tid now meta true st).2.ledger ∧
    (processRequest cfg auth tid now meta false st).2.tokens =
      (processRequest cfg auth tid now meta true st).2.tokens ∧
    (processRequest cfg auth tid now meta false st).2.rl =
      (processRequest cfg auth tid now meta true st).2.rl ∧
    (processRequest cfg auth tid now meta false st).2.index =
      (processRequest cfg auth tid now meta true st).2.index := by
  rcases auth with _ | w
  · simp [processRequest] at h
  · rcases hv : (verify_and_consume st.tokens tid now).1 with e | ⟨u, aty, delta⟩
    · simp [processRequest, hv] at h
    · rcases ha : (admission cfg st.rl u now).1 with _ | _ | _
      · rcases hap : (Ledger.apply st.ledger u delta now meta).1 with _ | ns
        · simp [processRequest, hv, ha, hap] at h
        · simp only [processRequest, hv, ha, hap] at h ⊢
          simp at h ⊢
          exact ⟨h.1, h.2.1, h.2.2⟩
      · simp [processRequest, hv, ha] at h
      · simp [processRequest, hv, ha] at h

theorem broadcast_best_effort_witness :
    (processRequest demoCfg (some 3) 2 50 "" true demoState).1 =
      Outcome.responded 5 1 5 ∧
    ((processRequest demoCfg (some 3) 2 50 "" false demoState).1 =
      Outcome.responded 5 1 5 ∧
     (processRequest demoCfg (some 3) 2 50 "" false demoState).2.ledger =
      (processRequest demoCfg (some 3) 2 50 "" true demoState).2.ledger ∧
     (processRequest demoCfg (some 3) 2 50 "" false demoState).2.tokens =
      (processRequest demoCfg (some 3) 2 50 "" true demoState).2.tokens ∧
     (processRequest demoCfg (some 3) 2 50 "" false demoState).2.rl =
      (processRequest demoCfg (some 3) 2 50 "" true demoState).2.rl ∧
     (processRequest demoCfg (some 3) 2 50 "" false demoState).2.index =
      (processRequest demoCfg (some 3) 2 50 "" true demoState).2.index) :=
  ⟨by decide, broadcast_best_effort demoCfg (some 3) 2 50 "" demoState 5 1 5 (by decide)⟩
